import Mathlib

/-!
Formal model of the blue-noise mesh sampling program (`mesh-sampling.py`).

The source computes per-triangle areas (`mesh_area`), draws area-weighted
random points on the mesh (`uniform_sample_mesh` built on
`triangle_point_picking`), and reduces an oversampled candidate point set to a
target size by greedy weighted elimination (`blue_noise_sample_elimination`).
Randomness is modelled as injected inputs (the drawn unit-square coordinates
and the drawn triangle indices), so every function here is a deterministic
function of the draws, exactly mirroring the arithmetic the source performs
on them.  Machine floats are modelled as real numbers.
-/

open scoped BigOperators Matrix

/-- A 3D point: one row of a numpy array of shape `(‹count›, 3)`. -/
abbrev Point : Type := Fin 3 → ℝ

/-- A triangle: three ordered 3D vertices, one row `triangle_list[k]`
of the array of shape `(‹count›, 3, 3)`. -/
structure Triangle where
  v0 : Point
  v1 : Point
  v2 : Point
deriving Inhabited

/-- `numpy.cross` of two 3-vectors, written componentwise exactly as numpy
computes it. -/
def npCross (a b : Point) : Point :=
  ![a 1 * b 2 - a 2 * b 1, a 2 * b 0 - a 0 * b 2, a 0 * b 1 - a 1 * b 0]

/-- `npCross` agrees with Mathlib's cross product. -/
theorem npCross_eq_crossProduct (a b : Point) : npCross a b = crossProduct a b := by
  rw [cross_apply]; rfl

/-- Area of one triangle exactly as `mesh_area` computes it:
`N = numpy.cross(v1 - v0, v2 - v0)`, `N_norm = sqrt(sum(N ** 2))`,
then `N_norm *= .5`. -/
noncomputable def triArea (T : Triangle) : ℝ :=
  Real.sqrt (∑ k : Fin 3, (npCross (T.v1 - T.v0) (T.v2 - T.v0)) k ^ 2) * 0.5

/-- `mesh_area(triangle_list)`: the per-triangle area vector, in input order. -/
noncomputable def mesh_area (ts : List Triangle) : List ℝ := ts.map triArea

/-- Euclidean norm of a 3-vector (the spec's `‖·‖`). -/
noncomputable def vnorm (v : Point) : ℝ := Real.sqrt (∑ k : Fin 3, v k ^ 2)

/-- Helper: the area of a triangle with collinear vertices is zero. -/
theorem triArea_of_collinear (T : Triangle)
    (h : Collinear ℝ ({T.v0, T.v1, T.v2} : Set Point)) : triArea T = 0 := by
  obtain ⟨v, hv⟩ := (collinear_iff_of_mem (show T.v0 ∈ ({T.v0, T.v1, T.v2} : Set Point) by
    simp)).1 h
  obtain ⟨c1, hc1⟩ := hv T.v1 (by simp)
  obtain ⟨c2, hc2⟩ := hv T.v2 (by simp)
  have e1 : T.v1 - T.v0 = c1 • v := by
    rw [hc1, vadd_eq_add]; abel
  have e2 : T.v2 - T.v0 = c2 • v := by
    rw [hc2, vadd_eq_add]; abel
  have hz : npCross (T.v1 - T.v0) (T.v2 - T.v0) = 0 := by
    rw [npCross_eq_crossProduct, e1, e2, LinearMap.map_smul₂, LinearMap.map_smul,
      cross_self, smul_zero, smul_zero]
  simp [triArea, hz]

/-- C7: `mesh_area` returns one non-negative value per triangle, in input
order, equal to `½ ‖(v1 − v0) × (v2 − v0)‖` for that triangle, and a
degenerate (collinear-vertex) triangle yields area exactly 0. -/
theorem mesh_area_spec (ts : List Triangle) (hne : ts ≠ []) :
    (mesh_area ts).length = ts.length ∧
    (∀ k, k < ts.length →
      (mesh_area ts).getD k 0 =
        1 / 2 * vnorm (crossProduct ((ts.getD k default).v1 - (ts.getD k default).v0)
          ((ts.getD k default).v2 - (ts.getD k default).v0))) ∧
    (∀ k, k < ts.length → 0 ≤ (mesh_area ts).getD k 0) ∧
    (∀ k, k < ts.length →
      Collinear ℝ ({(ts.getD k default).v0, (ts.getD k default).v1,
        (ts.getD k default).v2} : Set Point) →
      (mesh_area ts).getD k 0 = 0) := by
  have hlen : (mesh_area ts).length = ts.length := by simp [mesh_area]
  have hentry : ∀ k, k < ts.length → (mesh_area ts).getD k 0 = triArea (ts.getD k default) := by
    intro k hk
    rw [List.getD_eq_getElem _ _ (by rw [hlen]; exact hk), List.getD_eq_getElem _ _ hk]
    simp [mesh_area]
  refine ⟨hlen, ?_, ?_, ?_⟩
  · intro k hk
    rw [hentry k hk, triArea, vnorm, ← npCross_eq_crossProduct]
    ring
  · intro k hk
    rw [hentry k hk]
    exact mul_nonneg (Real.sqrt_nonneg _) (by norm_num)
  · intro k hk hcol
    rw [hentry k hk]
    exact triArea_of_collinear _ hcol

/-- Witness for C7 at a concrete one-triangle mesh. -/
theorem mesh_area_spec_witness :
    (([⟨![0, 0, 0], ![1, 0, 0], ![0, 1, 0]⟩] : List Triangle) ≠ []) ∧
    (mesh_area [⟨![0, 0, 0], ![1, 0, 0], ![0, 1, 0]⟩]).length = 1 :=
  ⟨by simp, (mesh_area_spec [⟨![0, 0, 0], ![1, 0, 0], ![0, 1, 0]⟩] (by simp)).1⟩

/-- The reflection step of `triangle_point_picking`: the row vector `(u, v)`
times the matrix `[[0, -1], [-1, 0]]`, plus 1, applied exactly when
`u + v > 1`; otherwise `(u, v)` is kept.  `X[t] = numpy.dot(X[t], reflection) + 1.`
gives `(1 - v, 1 - u)`. -/
noncomputable def foldUV (u v : ℝ) : ℝ × ℝ :=
  if u + v > 1 then (1 - v, 1 - u) else (u, v)

/-- One row of `triangle_point_picking`: given the triangle and the two
uniform draws `(u, v)` for that row, fold into the lower triangle of the unit
square and map by the einsum
`ret = v0 + u' * (v1 - v0) + v' * (v2 - v0)`. -/
noncomputable def triangle_point_picking (T : Triangle) (u v : ℝ) : Point :=
  fun k => T.v0 k + (foldUV u v).1 * (T.v1 k - T.v0 k) + (foldUV u v).2 * (T.v2 k - T.v0 k)

/-- C6: for draws `(u, v)` in the unit square, the point-picking step applies
the reflection `(u, v) → (1 - v, 1 - u)` exactly when `u + v > 1`, the folded
barycentric coordinates lie in `[0, 1]` with sum at most 1, the produced point
is `v0 + u' ⬝ (v1 - v0) + v' ⬝ (v2 - v0)`, and it lies in the convex hull of the
triangle's vertices. -/
theorem triangle_point_picking_spec (T : Triangle) (u v : ℝ)
    (hu0 : 0 ≤ u) (hu1 : u ≤ 1) (hv0 : 0 ≤ v) (hv1 : v ≤ 1) :
    (u + v > 1 → foldUV u v = (1 - v, 1 - u)) ∧
    (u + v ≤ 1 → foldUV u v = (u, v)) ∧
    (0 ≤ (foldUV u v).1 ∧ (foldUV u v).1 ≤ 1 ∧
      0 ≤ (foldUV u v).2 ∧ (foldUV u v).2 ≤ 1 ∧
      (foldUV u v).1 + (foldUV u v).2 ≤ 1) ∧
    (triangle_point_picking T u v =
      T.v0 + (foldUV u v).1 • (T.v1 - T.v0) + (foldUV u v).2 • (T.v2 - T.v0)) ∧
    triangle_point_picking T u v ∈ convexHull ℝ ({T.v0, T.v1, T.v2} : Set Point) := by
  have hfold : 0 ≤ (foldUV u v).1 ∧ (foldUV u v).1 ≤ 1 ∧
      0 ≤ (foldUV u v).2 ∧ (foldUV u v).2 ≤ 1 ∧
      (foldUV u v).1 + (foldUV u v).2 ≤ 1 := by
    unfold foldUV
    by_cases h : u + v > 1
    · rw [if_pos h]
      dsimp only
      refine ⟨by linarith, by linarith, by linarith, by linarith, by linarith⟩
    · rw [if_neg h]
      push_neg at h
      exact ⟨hu0, hu1, hv0, hv1, h⟩
  obtain ⟨ha0, ha1, hb0, hb1, hab⟩ := hfold
  set a := (foldUV u v).1 with hadef
  set b := (foldUV u v).2 with hbdef
  have hmap : triangle_point_picking T u v =
      T.v0 + a • (T.v1 - T.v0) + b • (T.v2 - T.v0) := by
    funext k
    simp [triangle_point_picking, hadef, hbdef]
  have hhull : triangle_point_picking T u v ∈
      convexHull ℝ ({T.v0, T.v1, T.v2} : Set Point) := by
    have hmem : ∑ i : Fin 3, (![1 - a - b, a, b] i) • (![T.v0, T.v1, T.v2] i) ∈
        convexHull ℝ ({T.v0, T.v1, T.v2} : Set Point) := by
      apply (convex_convexHull ℝ _).sum_mem
      · intro i _
        fin_cases i <;> simp <;> linarith
      · rw [Fin.sum_univ_three]
        simp; ring
      · intro i _
        fin_cases i <;>
          exact subset_convexHull ℝ ({T.v0, T.v1, T.v2} : Set Point) (by simp)
    have : triangle_point_picking T u v =
        ∑ i : Fin 3, (![1 - a - b, a, b] i) • (![T.v0, T.v1, T.v2] i) := by
      rw [hmap, Fin.sum_univ_three]
      funext k
      simp
      ring
    rw [this]
    exact hmem
  refine ⟨?_, ?_, ⟨ha0, ha1, hb0, hb1, hab⟩, hmap, hhull⟩
  · intro h; rw [foldUV, if_pos h]
  · intro h; rw [foldUV, if_neg (by linarith)]

/-- Witness for C6 at `u = 3/4`, `v = 1/2` (the reflected branch). -/
theorem triangle_point_picking_spec_witness :
    (0 ≤ (3 / 4 : ℝ) ∧ (3 / 4 : ℝ) ≤ 1 ∧ 0 ≤ (1 / 2 : ℝ) ∧ (1 / 2 : ℝ) ≤ 1) ∧
    foldUV (3 / 4) (1 / 2) = (1 - 1 / 2, 1 - 3 / 4) :=
  ⟨⟨by norm_num, by norm_num, by norm_num, by norm_num⟩,
    (triangle_point_picking_spec ⟨![0, 0, 0], ![1, 0, 0], ![0, 1, 0]⟩ (3 / 4) (1 / 2)
      (by norm_num) (by norm_num) (by norm_num) (by norm_num)).1 (by norm_num)⟩

/-- The error raised when the triangle areas do not form a valid probability
distribution (the spec's `InvalidDistributionError`; concretely,
`numpy.random.choice` rejects an invalid `p`). -/
inductive SamplingError where
  | InvalidDistributionError : SamplingError
deriving DecidableEq

/-- Modelled from the documented contract of the external library call
`numpy.random.choice(n, size, p)`: the call validates that `p` is a
probability distribution (entries non-negative, summing to one) and raises
otherwise; the drawn indices themselves are the injected randomness. -/
noncomputable def numpyRandomChoice (p : List ℝ) (draws : List ℕ) :
    Except SamplingError (List ℕ) :=
  if (∀ x ∈ p, 0 ≤ x) ∧ p.sum = 1 then Except.ok draws
  else Except.error SamplingError.InvalidDistributionError

/-- `uniform_sample_mesh(triangle_list, triangle_area_list, sample_count)`:
normalize the area vector by its sum, draw `sample_count` triangle indices
from the normalized distribution (`numpy.random.choice`), and pick one point
on each drawn triangle.  The random draws (triangle indices and unit-square
coordinates) are injected inputs. -/
noncomputable def uniform_sample_mesh (ts : List Triangle) (areas : List ℝ)
    (draws : List ℕ) (uvs : List (ℝ × ℝ)) : Except SamplingError (List Point) :=
  let triangle_area := areas.map (fun a => a / areas.sum)
  match numpyRandomChoice triangle_area draws with
  | Except.error e => Except.error e
  | Except.ok ids =>
      Except.ok ((ids.zip uvs).map
        (fun q => triangle_point_picking (ts.getD q.1 default) q.2.1 q.2.2))

/-- C8: when the total mesh surface area is zero, `uniform_sample_mesh` fails
with `InvalidDistributionError` and returns no points. -/
theorem uniform_sample_mesh_zero_area (ts : List Triangle) (areas : List ℝ)
    (draws : List ℕ) (uvs : List (ℝ × ℝ)) (hzero : areas.sum = 0) :
    uniform_sample_mesh ts areas draws uvs =
      Except.error SamplingError.InvalidDistributionError := by
  have hp : (areas.map (fun a => a / areas.sum)).sum = 0 := by
    rw [hzero]
    have : areas.map (fun a => a / (0 : ℝ)) = areas.map (fun _ => (0 : ℝ)) :=
      List.map_congr_left (fun a _ => div_zero a)
    rw [this]
    simp
  rw [uniform_sample_mesh, numpyRandomChoice, if_neg]
  intro hcontra
  rw [hp] at hcontra
  exact one_ne_zero hcontra.2.symm

/-- Witness for C8: a mesh consisting solely of one degenerate (zero-area)
triangle. -/
theorem uniform_sample_mesh_zero_area_witness :
    ([(0 : ℝ)].sum = 0) ∧
    uniform_sample_mesh [⟨![0, 0, 0], ![0, 0, 0], ![0, 0, 0]⟩] [0] [0] [(0, 0)] =
      Except.error SamplingError.InvalidDistributionError :=
  ⟨by simp,
    uniform_sample_mesh_zero_area [⟨![0, 0, 0], ![0, 0, 0], ![0, 0, 0]⟩] [0] [0] [(0, 0)]
      (by simp)⟩

/-- Euclidean distance between two 3D points (one entry of `pdist`). -/
noncomputable def pointDist (p q : Point) : ℝ :=
  Real.sqrt (∑ k : Fin 3, (p k - q k) ^ 2)

/-- The falloff exponent: `alpha = 8`. -/
def alpha : ℕ := 8

/-- `rmax = numpy.sqrt(mesh_surface_area / ((2 * sample_count) * numpy.sqrt(3.)))`. -/
noncomputable def rmax (A : ℝ) (n : ℕ) : ℝ :=
  Real.sqrt (A / ((2 * n) * Real.sqrt 3))

/-- The distance between candidate points `i` and `j` of the candidate list
(an entry of `squareform(pdist(point_list))`). -/
noncomputable def candDist (pts : List Point) (i j : ℕ) : ℝ :=
  pointDist (pts.getD i default) (pts.getD j default)

/-- Entry `(i, j)` of the weight matrix
`D = (1. - (numpy.minimum(squareform(pdist(point_list)), 2 * rmax) / (2 * rmax))) ** alpha`. -/
noncomputable def weightD (pts : List Point) (r : ℝ) (i j : ℕ) : ℝ :=
  (1 - min (candDist pts i j) (2 * r) / (2 * r)) ^ alpha

/-- `kdtree.query_ball_point(point_list[i], 2 * rmax)`: the indices of all
candidates within (inclusive) distance `2 * rmax` of candidate `i`. -/
noncomputable def ballIdx (pts : List Point) (r : ℝ) (i : ℕ) : Finset ℕ :=
  (Finset.range pts.length).filter (fun j => candDist pts i j ≤ 2 * r)

/-- `W[i] = sum(D[i, j] for j in kdtree.query_ball_point(point_list[i], 2 * rmax) if i != j)`. -/
noncomputable def initW (pts : List Point) (r : ℝ) (i : ℕ) : ℝ :=
  ∑ j in (ballIdx pts r i).erase i, weightD pts r i j

/-- The comparison Python's `sorted` / `heap.sort()` uses on `(w, i)` tuples:
lexicographic order, weight first, index as tie-break. -/
def heapLE (a b : ℝ × ℕ) : Prop :=
  a.1 < b.1 ∨ (a.1 = b.1 ∧ a.2 ≤ b.2)

noncomputable instance : DecidableRel heapLE := fun a b =>
  inferInstanceAs (Decidable (a.1 < b.1 ∨ (a.1 = b.1 ∧ a.2 ≤ b.2)))

instance : IsRefl (ℝ × ℕ) heapLE :=
  ⟨fun a => Or.inr ⟨rfl, le_refl _⟩⟩

instance : IsTotal (ℝ × ℕ) heapLE := by
  constructor
  intro a b
  rcases lt_trichotomy a.1 b.1 with h | h | h
  · exact Or.inl (Or.inl h)
  · rcases le_total a.2 b.2 with h2 | h2
    · exact Or.inl (Or.inr ⟨h, h2⟩)
    · exact Or.inr (Or.inr ⟨h.symm, h2⟩)
  · exact Or.inr (Or.inl h)

instance : IsTrans (ℝ × ℕ) heapLE := by
  constructor
  rintro a b c (h1 | ⟨h1, h1i⟩) (h2 | ⟨h2, h2i⟩)
  · exact Or.inl (h1.trans h2)
  · exact Or.inl (h2 ▸ h1)
  · exact Or.inl (h1 ▸ h2)
  · exact Or.inr ⟨h1.trans h2, h1i.trans h2i⟩

/-- Python's `sorted(...)` / `heap.sort()` on (weight, index) pairs: a stable
comparison sort; since all indices are distinct the sorted list is unique. -/
noncomputable def sortHeap (l : List (ℝ × ℕ)) : List (ℝ × ℕ) :=
  List.insertionSort heapLE l

theorem sortHeap_perm (l : List (ℝ × ℕ)) : List.Perm (sortHeap l) l :=
  List.perm_insertionSort heapLE l

theorem sortHeap_length (l : List (ℝ × ℕ)) : (sortHeap l).length = l.length :=
  List.length_insertionSort heapLE l

theorem sortHeap_sorted (l : List (ℝ × ℕ)) : (sortHeap l).Sorted heapLE :=
  List.sorted_insertionSort heapLE l

/-- One iteration of the elimination loop body:
`w, i = heap.pop(); id_set.remove(i);`
`neighbor_set = set(kdtree.query_ball_point(point_list[i], 2 * rmax)); neighbor_set.remove(i);`
`heap = [(w - D[i, j], j) if j in neighbor_set else (w, j) for w, j in heap]; heap.sort()`.
Returns the new heap and the new surviving-index set. -/
noncomputable def elimStep (Dm : ℕ → ℕ → ℝ) (nbr : ℕ → Finset ℕ)
    (heap : List (ℝ × ℕ)) (hne : heap ≠ []) (ids : Finset ℕ) :
    List (ℝ × ℕ) × Finset ℕ :=
  let p := heap.getLast hne
  (sortHeap (heap.dropLast.map
      (fun q => if q.2 ∈ nbr p.2 then (q.1 - Dm p.2 q.2, q.2) else q)),
    ids.erase p.2)

theorem elimStep_fst_length (Dm : ℕ → ℕ → ℝ) (nbr : ℕ → Finset ℕ)
    (heap : List (ℝ × ℕ)) (hne : heap ≠ []) (ids : Finset ℕ) :
    (elimStep Dm nbr heap hne ids).1.length = heap.length - 1 := by
  simp [elimStep, sortHeap_length]

/-- The `while len(id_set) > sample_count` elimination loop. -/
noncomputable def elimLoop (Dm : ℕ → ℕ → ℝ) (nbr : ℕ → Finset ℕ) (target : ℕ) :
    List (ℝ × ℕ) → Finset ℕ → Finset ℕ
  | [], ids => ids
  | x :: xs, ids =>
    if target < ids.card then
      elimLoop Dm nbr target
        (elimStep Dm nbr (x :: xs) (List.cons_ne_nil x xs) ids).1
        (elimStep Dm nbr (x :: xs) (List.cons_ne_nil x xs) ids).2
    else ids
termination_by heap _ => heap.length
decreasing_by
  rw [elimStep_fst_length]
  simp

/-- `blue_noise_sample_elimination(point_list, mesh_surface_area, sample_count)`:
compute `rmax`, the weight matrix and the per-point weights, sort the
`(weight, index)` heap, run the elimination loop, and return
`point_list[sorted(id_set)]`. -/
noncomputable def blue_noise_sample_elimination (pts : List Point) (A : ℝ) (n : ℕ) :
    List Point :=
  let r := rmax A n
  let heap := sortHeap ((List.range pts.length).map (fun i => (initW pts r i, i)))
  let ids := elimLoop (fun i j => weightD pts r i j)
    (fun i => (ballIdx pts r i).erase i) n heap (Finset.range pts.length)
  (ids.sort (· ≤ ·)).map (fun i => pts.getD i default)

/-- Loop invariant tying the heap to the surviving-index set: the heap holds
exactly one entry per surviving index. -/
def heapInv (heap : List (ℝ × ℕ)) (ids : Finset ℕ) : Prop :=
  (heap.map Prod.snd).Nodup ∧ ∀ j : ℕ, j ∈ heap.map Prod.snd ↔ j ∈ ids

theorem heapInv_length (heap : List (ℝ × ℕ)) (ids : Finset ℕ)
    (h : heapInv heap ids) : heap.length = ids.card := by
  obtain ⟨hnd, hmem⟩ := h
  have hset : (heap.map Prod.snd).toFinset = ids := by
    ext j
    rw [List.mem_toFinset]
    exact hmem j
  calc heap.length = (heap.map Prod.snd).length := by simp
    _ = (heap.map Prod.snd).toFinset.card := (List.toFinset_card_of_nodup hnd).symm
    _ = ids.card := by rw [hset]

theorem elimStep_snd (Dm : ℕ → ℕ → ℝ) (nbr : ℕ → Finset ℕ)
    (heap : List (ℝ × ℕ)) (hne : heap ≠ []) (ids : Finset ℕ) :
    (elimStep Dm nbr heap hne ids).2 = ids.erase (heap.getLast hne).2 := rfl

/-- After one loop iteration the invariant still holds, and the popped index
was a surviving one. -/
theorem elimStep_inv (Dm : ℕ → ℕ → ℝ) (nbr : ℕ → Finset ℕ)
    (heap : List (ℝ × ℕ)) (hne : heap ≠ []) (ids : Finset ℕ)
    (h : heapInv heap ids) :
    heapInv (elimStep Dm nbr heap hne ids).1 (ids.erase (heap.getLast hne).2) ∧
    (heap.getLast hne).2 ∈ ids := by
  obtain ⟨hnd, hmem⟩ := h
  have hin : (heap.getLast hne).2 ∈ ids :=
    (hmem _).1 (List.mem_map_of_mem Prod.snd (List.getLast_mem hne))
  have hcat : heap.map Prod.snd =
      heap.dropLast.map Prod.snd ++ [(heap.getLast hne).2] := by
    conv_lhs => rw [← List.dropLast_append_getLast hne]
    simp
  have hsndmap : (heap.dropLast.map (fun q =>
      if q.2 ∈ nbr (heap.getLast hne).2
      then (q.1 - Dm (heap.getLast hne).2 q.2, q.2) else q)).map Prod.snd =
      heap.dropLast.map Prod.snd := by
    rw [List.map_map]
    apply List.map_congr_left
    intro q _
    by_cases hc : q.2 ∈ nbr (heap.getLast hne).2 <;> simp [hc]
  have hperm : List.Perm ((elimStep Dm nbr heap hne ids).1.map Prod.snd)
      (heap.dropLast.map Prod.snd) := by
    refine (List.Perm.map Prod.snd (sortHeap_perm _)).trans ?_
    rw [hsndmap]
  rw [hcat] at hnd
  rw [List.nodup_append] at hnd
  obtain ⟨hnd1, _, hdisj⟩ := hnd
  refine ⟨⟨hperm.nodup_iff.2 hnd1, ?_⟩, hin⟩
  intro j
  rw [hperm.mem_iff, Finset.mem_erase]
  constructor
  · intro hj
    have hjids : j ∈ ids := by
      refine (hmem j).1 ?_
      rw [hcat, List.mem_append]
      exact Or.inl hj
    have hjne : j ≠ (heap.getLast hne).2 := by
      intro hEq
      exact hdisj hj (by simp [hEq])
    exact ⟨hjne, hjids⟩
  · rintro ⟨hjne, hjids⟩
    have := (hmem j).2 hjids
    rw [hcat, List.mem_append] at this
    rcases this with hj | hj
    · exact hj
    · exact absurd (by simpa using hj) hjne

/-- The initial heap `sorted((w, i) for i, w in enumerate(W))` paired with
`id_set = set(range(len(point_list)))` satisfies the invariant. -/
theorem heapInv_init (pts : List Point) (r : ℝ) :
    heapInv (sortHeap ((List.range pts.length).map (fun i => (initW pts r i, i))))
      (Finset.range pts.length) := by
  have hperm : List.Perm
      ((sortHeap ((List.range pts.length).map (fun i => (initW pts r i, i)))).map Prod.snd)
      (List.range pts.length) := by
    refine (List.Perm.map Prod.snd (sortHeap_perm _)).trans ?_
    rw [List.map_map]
    have : (Prod.snd ∘ fun i => (initW pts r i, i)) = fun i : ℕ => i := rfl
    rw [this]
    simp
  constructor
  · exact hperm.nodup_iff.2 (List.nodup_range pts.length)
  · intro j
    rw [hperm.mem_iff, List.mem_range, Finset.mem_range]

/-- If the surviving count is already at most the target, the loop does
nothing. -/
theorem elimLoop_of_card_le (Dm : ℕ → ℕ → ℝ) (nbr : ℕ → Finset ℕ) (target : ℕ)
    (heap : List (ℝ × ℕ)) (ids : Finset ℕ) (h : ids.card ≤ target) :
    elimLoop Dm nbr target heap ids = ids := by
  cases heap with
  | nil => rw [elimLoop]
  | cons x xs => rw [elimLoop, if_neg (by omega)]

/-- The loop only ever removes indices. -/
theorem elimLoop_subset (Dm : ℕ → ℕ → ℝ) (nbr : ℕ → Finset ℕ) (target : ℕ) :
    ∀ (N : ℕ) (heap : List (ℝ × ℕ)) (ids : Finset ℕ), heap.length ≤ N →
      elimLoop Dm nbr target heap ids ⊆ ids := by
  intro N
  induction N with
  | zero =>
    intro heap ids hlen
    have : heap = [] := List.length_eq_zero.1 (Nat.le_zero.1 hlen)
    subst this
    rw [elimLoop]
  | succ N ih =>
    intro heap ids hlen
    cases heap with
    | nil => rw [elimLoop]
    | cons x xs =>
      rw [elimLoop]
      by_cases hc : target < ids.card
      · rw [if_pos hc]
        refine (ih _ _ ?_).trans ?_
        · rw [elimStep_fst_length]
          simp at hlen ⊢
          omega
        · rw [elimStep_snd]
          exact Finset.erase_subset _ _
      · rw [if_neg hc]

/-- Main cardinality property of the loop: starting from a consistent
heap/ids state with at least `target` survivors, the loop ends with exactly
`target` survivors. -/
theorem elimLoop_card (Dm : ℕ → ℕ → ℝ) (nbr : ℕ → Finset ℕ) (target : ℕ) :
    ∀ (N : ℕ) (heap : List (ℝ × ℕ)) (ids : Finset ℕ), heap.length ≤ N →
      heapInv heap ids → target ≤ ids.card →
      (elimLoop Dm nbr target heap ids).card = target := by
  intro N
  induction N with
  | zero =>
    intro heap ids hlen hinv hge
    have : heap = [] := List.length_eq_zero.1 (Nat.le_zero.1 hlen)
    subst this
    rw [elimLoop]
    have := heapInv_length _ _ hinv
    simp at this
    omega
  | succ N ih =>
    intro heap ids hlen hinv hge
    cases heap with
    | nil =>
      rw [elimLoop]
      have := heapInv_length _ _ hinv
      simp at this
      omega
    | cons x xs =>
      rw [elimLoop]
      by_cases hc : target < ids.card
      · rw [if_pos hc]
        obtain ⟨hinv2, hpop⟩ :=
          elimStep_inv Dm nbr (x :: xs) (List.cons_ne_nil x xs) ids hinv
        rw [elimStep_snd]
        refine ih _ _ ?_ hinv2 ?_
        · rw [elimStep_fst_length]
          simp at hlen ⊢
          omega
        · rw [Finset.card_erase_of_mem hpop]
          omega
      · rw [if_neg hc]
        omega

theorem pairwise_lt_sub_one : ∀ (m : List ℕ), (∀ i ∈ m, 1 ≤ i) → m.Pairwise (· < ·) →
    (m.map (fun i => i - 1)).Pairwise (· < ·) := by
  intro m
  induction m with
  | nil => simp
  | cons a as ih =>
    intro hb hp
    rw [List.pairwise_cons] at hp
    rw [List.map_cons, List.pairwise_cons]
    refine ⟨?_, ih (fun i hi => hb i (List.mem_cons_of_mem a hi)) hp.2⟩
    intro b hb2
    rw [List.mem_map] at hb2
    obtain ⟨c, hc, rfl⟩ := hb2
    have h1 := hb a (List.mem_cons_self a as)
    have h2 := hp.1 c hc
    omega

/-- Indexing a list at a strictly increasing list of in-range indices yields a
sublist (`point_list[sorted(id_set)]` is a subsequence of `point_list`). -/
theorem map_getD_sublist :
    ∀ (pts : List Point) (l : List ℕ), l.Sorted (· < ·) →
      (∀ i ∈ l, i < pts.length) →
      List.Sublist (l.map (fun i => pts.getD i default)) pts := by
  intro pts
  induction pts with
  | nil =>
    intro l hs hb
    cases l with
    | nil => simp
    | cons a as => exact absurd (hb a (by simp)) (by simp)
  | cons p ps ih =>
    intro l hs hb
    have hshift : ∀ (m : List ℕ), (∀ i ∈ m, 1 ≤ i) →
        m.map (fun i => (p :: ps).getD i default) =
        (m.map (fun i => i - 1)).map (fun i => ps.getD i default) := by
      intro m hm
      rw [List.map_map]
      apply List.map_congr_left
      intro i hi
      obtain ⟨j, rfl⟩ : ∃ j, i = j + 1 := ⟨i - 1, by have := hm i hi; omega⟩
      simp
    have hbshift : ∀ (m : List ℕ), (∀ i ∈ m, 1 ≤ i) → (∀ i ∈ m, i < (p :: ps).length) →
        ∀ i ∈ m.map (fun i => i - 1), i < ps.length := by
      intro m hm hmb i hi
      rw [List.mem_map] at hi
      obtain ⟨c, hc, rfl⟩ := hi
      have h1 := hm c hc
      have h2 := hmb c hc
      simp at h2
      omega
    cases l with
    | nil => simp
    | cons a as =>
      have hs2 : as.Sorted (· < ·) := hs.of_cons
      have has1 : ∀ i ∈ as, a + 1 ≤ i := by
        intro i hi
        have := List.rel_of_sorted_cons hs i hi
        omega
      cases Nat.eq_zero_or_pos a with
      | inl h0 =>
        subst h0
        have hrw : (0 :: as).map (fun i => (p :: ps).getD i default) =
            p :: ((as.map (fun i => i - 1)).map (fun i => ps.getD i default)) := by
          rw [List.map_cons, hshift as (fun i hi => by have := has1 i hi; omega)]
          simp
        rw [hrw]
        exact List.Sublist.cons₂ p (ih _
          (pairwise_lt_sub_one as (fun i hi => by have := has1 i hi; omega) hs2)
          (hbshift as (fun i hi => by have := has1 i hi; omega)
            (fun i hi => hb i (List.mem_cons_of_mem 0 hi))))
      | inr hpos =>
        have hall1 : ∀ i ∈ a :: as, 1 ≤ i := by
          intro i hi
          rcases List.mem_cons.1 hi with rfl | hi2
          · omega
          · have := has1 i hi2; omega
        rw [hshift (a :: as) hall1]
        exact List.Sublist.cons p (ih _
          (pairwise_lt_sub_one (a :: as) hall1 hs)
          (hbshift (a :: as) hall1 hb))

/-- Indexing a list by `range` of its length reproduces the list. -/
theorem map_getD_range (pts : List Point) :
    (List.range pts.length).map (fun i => pts.getD i default) = pts := by
  apply List.ext_getElem
  · simp
  · intro i h1 h2
    simp only [List.getElem_map, List.getElem_range]
    rw [List.getD_eq_getElem _ _ h2]

/-- Unfolding of `blue_noise_sample_elimination` into its pipeline parts. -/
theorem blue_noise_def (pts : List Point) (A : ℝ) (n : ℕ) :
    blue_noise_sample_elimination pts A n =
      ((elimLoop (fun i j => weightD pts (rmax A n) i j)
        (fun i => (ballIdx pts (rmax A n) i).erase i) n
        (sortHeap ((List.range pts.length).map (fun i => (initW pts (rmax A n) i, i))))
        (Finset.range pts.length)).sort (· ≤ ·)).map (fun i => pts.getD i default) := rfl

theorem blue_noise_length_of_ge (pts : List Point) (A : ℝ) (n : ℕ) (h : n ≤ pts.length) :
    (blue_noise_sample_elimination pts A n).length = n := by
  rw [blue_noise_def, List.length_map, Finset.length_sort]
  exact elimLoop_card _ _ _
    (sortHeap ((List.range pts.length).map (fun i => (initW pts (rmax A n) i, i)))).length
    _ _ le_rfl (heapInv_init pts (rmax A n)) (by simpa using h)

theorem blue_noise_sublist (pts : List Point) (A : ℝ) (n : ℕ) :
    List.Sublist (blue_noise_sample_elimination pts A n) pts := by
  rw [blue_noise_def]
  apply map_getD_sublist
  · exact Finset.sort_sorted_lt _
  · intro i hi
    have h1 := (Finset.mem_sort _).1 hi
    have h2 := elimLoop_subset (fun i j => weightD pts (rmax A n) i j)
      (fun i => (ballIdx pts (rmax A n) i).erase i) n
      (sortHeap ((List.range pts.length).map (fun i => (initW pts (rmax A n) i, i)))).length
      (sortHeap ((List.range pts.length).map (fun i => (initW pts (rmax A n) i, i))))
      (Finset.range pts.length) le_rfl h1
    simpa using h2

theorem blue_noise_eq_of_le (pts : List Point) (A : ℝ) (n : ℕ) (h : pts.length ≤ n) :
    blue_noise_sample_elimination pts A n = pts := by
  rw [blue_noise_def, elimLoop_of_card_le _ _ _ _ _ (by simpa using h),
    Finset.sort_range]
  exact map_getD_range pts

/-- C1: for every candidate list of size at least `target_count`,
`blue_noise_sample_elimination` returns exactly `target_count` of the input
points, in original candidate-index order (a sublist of the input). -/
theorem blue_noise_returns_target_count (pts : List Point) (A : ℝ) (n : ℕ)
    (h : n ≤ pts.length) :
    (blue_noise_sample_elimination pts A n).length = n ∧
    List.Sublist (blue_noise_sample_elimination pts A n) pts :=
  ⟨blue_noise_length_of_ge pts A n h, blue_noise_sublist pts A n⟩

/-- Witness for C1: three candidates reduced to target 2. -/
theorem blue_noise_returns_target_count_witness :
    2 ≤ ([(fun _ => (0 : ℝ)), (fun _ => 3), (fun _ => 9)] : List Point).length ∧
    (blue_noise_sample_elimination
      [(fun _ => (0 : ℝ)), (fun _ => 3), (fun _ => 9)] 1 2).length = 2 :=
  ⟨by simp,
    (blue_noise_returns_target_count
      [(fun _ => (0 : ℝ)), (fun _ => 3), (fun _ => 9)] 1 2 (by simp)).1⟩

/-- C10: with at most `target_count` candidates, the elimination loop never
runs and the whole candidate list is returned unchanged, with no error. -/
theorem blue_noise_small_input_unchanged (pts : List Point) (A : ℝ) (n : ℕ)
    (h : pts.length ≤ n) :
    blue_noise_sample_elimination pts A n = pts :=
  blue_noise_eq_of_le pts A n h

/-- Witness for C10: two candidates, target 5. -/
theorem blue_noise_small_input_unchanged_witness :
    ([(fun _ => (0 : ℝ)), (fun _ => 7)] : List Point).length ≤ 5 ∧
    blue_noise_sample_elimination [(fun _ => (0 : ℝ)), (fun _ => 7)] 1 5 =
      [(fun _ => (0 : ℝ)), (fun _ => 7)] :=
  ⟨by simp,
    blue_noise_small_input_unchanged [(fun _ => (0 : ℝ)), (fun _ => 7)] 1 5 (by simp)⟩

/-- C2 counterexample: the code raises no `InsufficientCandidatesError`.
With one candidate and target 2 (candidate count < target), the elimination
function returns normally, yielding the unchanged one-point candidate list
instead of failing (and in particular not `target_count` points). -/
theorem blue_noise_insufficient_counterexample :
    blue_noise_sample_elimination [(fun _ => (0 : ℝ))] 1 2 = [(fun _ => (0 : ℝ))] ∧
    (blue_noise_sample_elimination [(fun _ => (0 : ℝ))] 1 2).length ≠ 2 := by
  have h := blue_noise_eq_of_le [(fun _ => (0 : ℝ))] 1 2 (by simp)
  exact ⟨h, by rw [h]; simp⟩

/-- C2 (amended): `blue_noise_sample_elimination` never raises; when the
candidate count is strictly smaller than `target_count` it returns the whole
candidate list unchanged, and otherwise it returns exactly `target_count`
points. -/
theorem blue_noise_insufficient_amended (pts : List Point) (A : ℝ) (n : ℕ) :
    (pts.length < n → blue_noise_sample_elimination pts A n = pts) ∧
    (n ≤ pts.length → (blue_noise_sample_elimination pts A n).length = n) :=
  ⟨fun h => blue_noise_eq_of_le pts A n (le_of_lt h),
    fun h => blue_noise_length_of_ge pts A n h⟩

/-- Witness for the amended C2, exercising both branches at concrete inputs. -/
theorem blue_noise_insufficient_amended_witness :
    blue_noise_sample_elimination [(fun _ => (1 : ℝ))] 1 3 = [(fun _ => (1 : ℝ))] ∧
    (blue_noise_sample_elimination [(fun _ => (1 : ℝ)), (fun _ => 5)] 1 1).length = 1 :=
  ⟨(blue_noise_insufficient_amended [(fun _ => (1 : ℝ))] 1 3).1 (by simp),
    (blue_noise_insufficient_amended [(fun _ => (1 : ℝ)), (fun _ => 5)] 1 1).2 (by simp)⟩

/-- The current weight recorded in the heap for index `j`: the sum of the
first components of the heap entries whose index is `j`.  Under the
invariant each surviving index has exactly one entry, so this is the weight
`W[j]` the code maintains; the sum form makes it insensitive to heap order. -/
noncomputable def heapWeight (heap : List (ℝ × ℕ)) (j : ℕ) : ℝ :=
  ((heap.filter (fun q => q.2 == j)).map Prod.fst).sum

theorem heapWeight_perm (l1 l2 : List (ℝ × ℕ)) (j : ℕ) (h : List.Perm l1 l2) :
    heapWeight l1 j = heapWeight l2 j :=
  List.Perm.sum_eq (List.Perm.map Prod.fst (List.Perm.filter _ h))

theorem filter_eq_singleton_of_nodup :
    ∀ (rest : List (ℝ × ℕ)) (j : ℕ), (rest.map Prod.snd).Nodup →
      j ∈ rest.map Prod.snd →
      ∃ w, rest.filter (fun q => q.2 == j) = [(w, j)] := by
  intro rest
  induction rest with
  | nil => intro j _ hj; simp at hj
  | cons q rs ih =>
    intro j hnd hj
    rw [List.map_cons, List.nodup_cons] at hnd
    by_cases hqj : q.2 = j
    · refine ⟨q.1, ?_⟩
      have hnone : rs.filter (fun x => x.2 == j) = [] := by
        rw [List.filter_eq_nil_iff]
        intro x hx
        simp only [beq_iff_eq]
        intro hxj
        exact hnd.1 (hqj ▸ hxj ▸ List.mem_map_of_mem Prod.snd hx)
      rw [List.filter_cons_of_pos (by simp [hqj]), hnone]
      have hq : q = (q.1, j) := by
        rw [← hqj]
      rw [hq]
    · have hj2 : j ∈ rs.map Prod.snd := by
        rw [List.map_cons, List.mem_cons] at hj
        rcases hj with h | h
        · exact absurd h.symm hqj
        · exact h
      rw [List.filter_cons_of_neg (by simp [hqj])]
      exact ih j hnd.2 hj2

/-- Entries other than the popped (last) one keep their recorded weight when
passing from the heap to its `dropLast`. -/
theorem heapWeight_dropLast (heap : List (ℝ × ℕ)) (hne : heap ≠ []) (j : ℕ)
    (hj : j ≠ (heap.getLast hne).2) :
    heapWeight heap.dropLast j = heapWeight heap j := by
  conv_rhs => rw [← List.dropLast_append_getLast hne]
  rw [heapWeight, heapWeight, List.filter_append]
  have : [heap.getLast hne].filter (fun q => q.2 == j) = [] := by
    rw [List.filter_eq_nil_iff]
    intro x hx
    rw [List.mem_singleton] at hx
    subst hx
    simp only [beq_iff_eq]
    exact fun h => hj h.symm
  rw [this, List.append_nil]

/-- Effect of one elimination step on the recorded weight of a surviving
index `j ≠ i*`: it drops by `D[i*, j]` exactly when `j` is a neighbor of the
popped index `i*`, and is unchanged otherwise. -/
theorem elimStep_heapWeight_update (Dm : ℕ → ℕ → ℝ) (nbr : ℕ → Finset ℕ)
    (heap : List (ℝ × ℕ)) (hne : heap ≠ []) (ids : Finset ℕ)
    (hnd : (heap.map Prod.snd).Nodup)
    (j : ℕ) (hj : j ∈ heap.map Prod.snd) (hjne : j ≠ (heap.getLast hne).2) :
    heapWeight (elimStep Dm nbr heap hne ids).1 j =
      heapWeight heap j -
        (if j ∈ nbr (heap.getLast hne).2 then Dm (heap.getLast hne).2 j else 0) := by
  have hcat : heap.map Prod.snd =
      heap.dropLast.map Prod.snd ++ [(heap.getLast hne).2] := by
    conv_lhs => rw [← List.dropLast_append_getLast hne]
    simp
  have hnd2 : (heap.dropLast.map Prod.snd).Nodup := by
    rw [hcat, List.nodup_append] at hnd
    exact hnd.1
  have hj2 : j ∈ heap.dropLast.map Prod.snd := by
    rw [hcat, List.mem_append] at hj
    rcases hj with h | h
    · exact h
    · exact absurd (by simpa using h) hjne
  obtain ⟨w, hw⟩ := filter_eq_singleton_of_nodup heap.dropLast j hnd2 hj2
  have hwheap : heapWeight heap j = w := by
    rw [← heapWeight_dropLast heap hne j hjne, heapWeight, hw]
    simp
  have hstep : heapWeight (elimStep Dm nbr heap hne ids).1 j =
      heapWeight (heap.dropLast.map (fun q =>
        if q.2 ∈ nbr (heap.getLast hne).2
        then (q.1 - Dm (heap.getLast hne).2 q.2, q.2) else q)) j :=
    heapWeight_perm _ _ j (sortHeap_perm _)
  rw [hstep, heapWeight, List.filter_map]
  have hcomp : ((fun q : ℝ × ℕ => q.2 == j) ∘ (fun q : ℝ × ℕ =>
      if q.2 ∈ nbr (heap.getLast hne).2
      then (q.1 - Dm (heap.getLast hne).2 q.2, q.2) else q)) =
      fun q : ℝ × ℕ => q.2 == j := by
    funext q
    by_cases hc : q.2 ∈ nbr (heap.getLast hne).2 <;> simp [hc]
  rw [hcomp, hw, hwheap]
  by_cases hc : j ∈ nbr (heap.getLast hne).2 <;> simp [hc]

/-- In a heap sorted by the Python tuple order, the last element dominates
every element. -/
theorem sorted_heapLE_getLast :
    ∀ (l : List (ℝ × ℕ)), l.Sorted heapLE → ∀ (hne : l ≠ []) (q : ℝ × ℕ), q ∈ l →
      heapLE q (l.getLast hne) := by
  intro l
  induction l with
  | nil => intro _ hne; exact absurd rfl hne
  | cons x xs ih =>
    intro hs hne q hq
    cases xs with
    | nil =>
      rw [List.mem_singleton] at hq
      subst hq
      exact Or.inr ⟨rfl, le_refl _⟩
    | cons y ys =>
      rw [List.getLast_cons (List.cons_ne_nil y ys)]
      rcases List.mem_cons.1 hq with rfl | hq2
      · exact List.rel_of_sorted_cons hs _ (List.getLast_mem (List.cons_ne_nil y ys))
      · exact ih hs.of_cons (List.cons_ne_nil y ys) q hq2

theorem rmax_pos (A : ℝ) (n : ℕ) (hA : 0 < A) (hn : 0 < n) : 0 < rmax A n := by
  rw [rmax]
  apply Real.sqrt_pos.2
  apply div_pos hA
  have h3 : (0:ℝ) < Real.sqrt 3 := Real.sqrt_pos.2 (by norm_num)
  have hn2 : (0:ℝ) < (n : ℝ) := by exact_mod_cast hn
  exact mul_pos (mul_pos two_pos hn2) h3

/-- Every pairwise weight is non-negative (an even power). -/
theorem weightD_nonneg (pts : List Point) (r : ℝ) (i j : ℕ) :
    0 ≤ weightD pts r i j := by
  rw [weightD, show alpha = 2 * 4 from rfl, pow_mul]
  exact pow_nonneg (sq_nonneg _) 4

/-- The spec's pairwise weight formula
`w(i, j) = (1 − min(d(i,j), 2·r_max) / (2·r_max))^8`, written from the spec's
words as a function of the distance `d`, for comparison with the code's `D`. -/
noncomputable def specWeight (r d : ℝ) : ℝ := (1 - min d (2 * r) / (2 * r)) ^ 8

/-- C4: `r_max = sqrt(total_surface_area / (2·target_count·sqrt 3))`; the
code's weight matrix entry equals the spec's formula with `α = 8`; the weight
is `0` whenever `d(i,j) ≥ 2·r_max`; and each point's initial total weight is
the sum of `w(i,j)` over the other points within distance `2·r_max`. -/
theorem weight_matrix_spec (pts : List Point) (A : ℝ) (n : ℕ)
    (hA : 0 < A) (hn : 0 < n) :
    rmax A n = Real.sqrt (A / (2 * n * Real.sqrt 3)) ∧
    (∀ i j, weightD pts (rmax A n) i j = specWeight (rmax A n) (candDist pts i j)) ∧
    (∀ i j, 2 * rmax A n ≤ candDist pts i j → weightD pts (rmax A n) i j = 0) ∧
    (∀ i, initW pts (rmax A n) i =
      ∑ j in (Finset.range pts.length).filter
        (fun j => candDist pts i j ≤ 2 * rmax A n ∧ j ≠ i),
        specWeight (rmax A n) (candDist pts i j)) := by
  have hr := rmax_pos A n hA hn
  have h2r : (2 * rmax A n) ≠ 0 := ne_of_gt (mul_pos two_pos hr)
  refine ⟨rfl, fun i j => rfl, ?_, ?_⟩
  · intro i j hd
    rw [weightD, min_eq_right hd, div_self h2r, sub_self]
    exact zero_pow (by decide)
  · intro i
    rw [initW]
    apply Finset.sum_congr
    · ext j
      rw [Finset.mem_erase, ballIdx, Finset.mem_filter, Finset.mem_filter]
      constructor
      · rintro ⟨h1, h2, h3⟩
        exact ⟨h2, h3, h1⟩
      · rintro ⟨h1, h2, h3⟩
        exact ⟨h3, h1, h2⟩
    · intro j _
      rfl

/-- Witness for C4 at `A = 1`, `n = 1`. -/
theorem weight_matrix_spec_witness :
    (0:ℝ) < 1 ∧ (0:ℕ) < 1 ∧
    weightD [] (rmax 1 1) 0 1 = specWeight (rmax 1 1) (candDist [] 0 1) :=
  ⟨by norm_num, by norm_num,
    (weight_matrix_spec [] 1 1 (by norm_num) (by norm_num)).2.1 0 1⟩

/-- C3: in every iteration of the elimination loop (any state satisfying the
loop invariants, with the loop condition holding), the popped entry is a
surviving index of maximal current weight, ties broken deterministically (the
largest index among maximal-weight entries), and afterwards each surviving
`j`'s weight drops by exactly `D[i*, j] = w(i*, j)` when `j` is within
distance `2·r_max` of the popped point `i*`, and is unchanged otherwise; the
new heap is sorted again, and this step is exactly what `elimLoop` performs. -/
theorem elim_iteration_spec (pts : List Point) (A : ℝ) (n : ℕ)
    (heap : List (ℝ × ℕ)) (ids : Finset ℕ) (hne : heap ≠ [])
    (hsorted : heap.Sorted heapLE) (hinv : heapInv heap ids)
    (hrange : ids ⊆ Finset.range pts.length) (hrun : n < ids.card) :
    (heap.getLast hne).2 ∈ ids ∧
    (∀ q ∈ heap, q.1 < (heap.getLast hne).1 ∨
      (q.1 = (heap.getLast hne).1 ∧ q.2 ≤ (heap.getLast hne).2)) ∧
    (∀ j ∈ ids, j ≠ (heap.getLast hne).2 →
      heapWeight (elimStep (fun a b => weightD pts (rmax A n) a b)
          (fun a => (ballIdx pts (rmax A n) a).erase a) heap hne ids).1 j =
        heapWeight heap j -
          (if candDist pts (heap.getLast hne).2 j ≤ 2 * rmax A n
           then weightD pts (rmax A n) (heap.getLast hne).2 j else 0)) ∧
    (elimStep (fun a b => weightD pts (rmax A n) a b)
        (fun a => (ballIdx pts (rmax A n) a).erase a) heap hne ids).1.Sorted heapLE ∧
    elimLoop (fun a b => weightD pts (rmax A n) a b)
        (fun a => (ballIdx pts (rmax A n) a).erase a) n heap ids =
      elimLoop (fun a b => weightD pts (rmax A n) a b)
        (fun a => (ballIdx pts (rmax A n) a).erase a) n
        (elimStep (fun a b => weightD pts (rmax A n) a b)
          (fun a => (ballIdx pts (rmax A n) a).erase a) heap hne ids).1
        (ids.erase (heap.getLast hne).2) := by
  have hpop : (heap.getLast hne).2 ∈ ids :=
    (hinv.2 _).1 (List.mem_map_of_mem Prod.snd (List.getLast_mem hne))
  refine ⟨hpop, ?_, ?_, ?_, ?_⟩
  · intro q hq
    exact sorted_heapLE_getLast heap hsorted hne q hq
  · intro j hjids hjne
    have hj : j ∈ heap.map Prod.snd := (hinv.2 j).2 hjids
    rw [elimStep_heapWeight_update _ _ heap hne ids hinv.1 j hj hjne]
    congr 1
    have hjrange : j ∈ Finset.range pts.length := hrange hjids
    have hcond : (j ∈ (ballIdx pts (rmax A n) (heap.getLast hne).2).erase
        (heap.getLast hne).2) ↔
        candDist pts (heap.getLast hne).2 j ≤ 2 * rmax A n := by
      rw [Finset.mem_erase, ballIdx, Finset.mem_filter]
      constructor
      · rintro ⟨-, -, h⟩
        exact h
      · intro h
        exact ⟨hjne, hjrange, h⟩
    rw [if_congr hcond rfl rfl]
  · exact sortHeap_sorted _
  · cases heap with
    | nil => exact absurd rfl hne
    | cons x xs =>
      rw [elimLoop, if_pos hrun, elimStep_snd]

/-- Witness for C3 at a concrete two-point state. -/
theorem elim_iteration_spec_witness :
    (([((0:ℝ), 0), ((0:ℝ), 1)] : List (ℝ × ℕ)).getLast
      (List.cons_ne_nil _ _)).2 ∈ Finset.range 2 :=
  (elim_iteration_spec [(fun _ => (0:ℝ)), (fun _ => 9)] 1 1
    [((0:ℝ), 0), ((0:ℝ), 1)] (Finset.range 2) (List.cons_ne_nil _ _)
    (by refine List.Pairwise.cons ?_ (List.sorted_singleton _)
        intro b hb
        rw [List.mem_singleton] at hb
        subst hb
        exact Or.inr ⟨rfl, by norm_num⟩)
    (by refine ⟨by simp, fun j => ?_⟩
        simp only [List.map_cons, List.map_nil, List.mem_cons, List.not_mem_nil,
          or_false, Finset.mem_range]
        omega)
    (by simp)
    (by simp)).1

/-- C5: across one elimination step, no surviving point's recorded weight
increases (the decrement is by a non-negative pairwise weight). -/
theorem elim_monotone_weights (pts : List Point) (A : ℝ) (n : ℕ)
    (heap : List (ℝ × ℕ)) (ids : Finset ℕ) (hne : heap ≠ [])
    (hinv : heapInv heap ids) :
    ∀ j ∈ ids, j ≠ (heap.getLast hne).2 →
      heapWeight (elimStep (fun a b => weightD pts (rmax A n) a b)
          (fun a => (ballIdx pts (rmax A n) a).erase a) heap hne ids).1 j ≤
        heapWeight heap j := by
  intro j hjids hjne
  have hj : j ∈ heap.map Prod.snd := (hinv.2 j).2 hjids
  rw [elimStep_heapWeight_update _ _ heap hne ids hinv.1 j hj hjne]
  apply sub_le_self
  by_cases hc : j ∈ (ballIdx pts (rmax A n) (heap.getLast hne).2).erase (heap.getLast hne).2
  · rw [if_pos hc]
    exact weightD_nonneg pts (rmax A n) _ j
  · rw [if_neg hc]

/-- Witness for C5 at a concrete two-point state. -/
theorem elim_monotone_weights_witness :
    heapWeight (elimStep (fun a b => weightD [(fun _ => (0:ℝ)), (fun _ => 9)] (rmax 1 1) a b)
        (fun a => (ballIdx [(fun _ => (0:ℝ)), (fun _ => 9)] (rmax 1 1) a).erase a)
        [((0:ℝ), 0), ((0:ℝ), 1)] (List.cons_ne_nil _ _) (Finset.range 2)).1 0 ≤
      heapWeight [((0:ℝ), 0), ((0:ℝ), 1)] 0 :=
  elim_monotone_weights [(fun _ => (0:ℝ)), (fun _ => 9)] 1 1
    [((0:ℝ), 0), ((0:ℝ), 1)] (Finset.range 2) (List.cons_ne_nil _ _)
    (by refine ⟨by simp, fun j => ?_⟩
        simp only [List.map_cons, List.map_nil, List.mem_cons, List.not_mem_nil,
          or_false, Finset.mem_range]
        omega)
    0 (by simp) (by simp)
